import Mathlib

/-!
Verification development for the bybit_trade_analyzer backend.

Part 1 embeds the fill-matching engine of
`exchanges/hyperliquid_exchange.py` (`HyperliquidExchange._process_raw_trades`):
a per-symbol FIFO position ledger consuming ordered fills and emitting
completed trade records.  Sizes, prices and fees are modelled as rationals
(exact arithmetic over the Python floats); timestamps as integers
(milliseconds).

Part 2 embeds the cache layer of `cache_manager.py` (tables `trades` and
`cache_ranges` as in-memory lists of rows) and the reconciler
`fetch_all_completed_trades_for_period` of `api_routes.py`.
-/

/-- A raw fill's direction tag (the `dir` field of a Hyperliquid fill):
{Open Long, Open Short, Close Long, Close Short, Short > Long, Long > Short}. -/
inductive Dir where
  | openLong
  | openShort
  | closeLong
  | closeShort
  | shortToLong
  | longToShort
deriving DecidableEq, Repr

/-- One raw fill, as read off `trade['info']`: direction `dir`, size `sz`,
price `px`, timestamp `time` (ms) and `fee`. -/
structure Fill where
  dir : Dir
  sz : ℚ
  px : ℚ
  time : ℤ
  fee : ℚ
deriving DecidableEq, Repr

/-- An open position lot held in `open_positions['long'|'short']`:
`{'size': …, 'price': …, 'timestamp': …, 'fee': …}` (the raw `trade`
back-reference carries no data the matcher reads, and is omitted). -/
structure OpenLot where
  size : ℚ
  price : ℚ
  timestamp : ℤ
  fee : ℚ
deriving DecidableEq, Repr

/-- A `completed_trade` dict emitted by the matcher.  `closedPnl` and `fee`
are stored as strings in the Python dict; their numeric values are modelled.
`raw_data` (the open/close fill back-references) is omitted. -/
structure TradeRecord where
  symbol : String
  side : String
  position_type : String
  avgEntryPrice : ℚ
  avgExitPrice : ℚ
  qty : ℚ
  closedPnl : ℚ
  fee : ℚ
  updatedTime : ℤ
  entryTime : ℤ
  duration : ℤ
deriving DecidableEq, Repr

/-- The per-symbol position ledger `open_positions`: the FIFO queues of open
long and open short lots (oldest first). -/
structure Ledger where
  long : List OpenLot
  short : List OpenLot
deriving DecidableEq, Repr

/-- The empty ledger `{'long': [], 'short': []}`. -/
def Ledger.empty : Ledger := ⟨[], []⟩

/-- The `while remaining > 0 and open_positions[...]` loop that absorbs the
remainder of a close fill after the first (already recorded) lot was popped:
a lot whose size is at most the remainder is popped, a larger one is reduced
in place. No further trade record is emitted here. -/
def consumeRemaining : ℚ → List OpenLot → List OpenLot
  | _, [] => []
  | remaining, lot :: rest =>
    if 0 < remaining then
      if lot.size ≤ remaining then consumeRemaining (remaining - lot.size) rest
      else ⟨lot.size - remaining, lot.price, lot.timestamp, lot.fee⟩ :: rest
    else lot :: rest

/-- The `while remaining_size > 0 and open_positions['long']` loop of the
`'Long > Short'` branch: close long lots FIFO, emitting one record per
consumed lot, the lot's fee and the flip fill's own fee allocated
proportionally (`close_size / open_position['size']` and
`close_size / size`).  Returns the remaining long queue, the total closed
size (`closed_long_size`) and the emitted records in order. -/
def flipCloseLongs (sym : String) (f : Fill) :
    ℚ → List OpenLot → List OpenLot × ℚ × List TradeRecord
  | _, [] => ([], 0, [])
  | remaining, lot :: rest =>
    if 0 < remaining then
      let close_size := min lot.size remaining
      let position_fee := lot.fee * (close_size / lot.size)
      let close_fee := f.fee * (close_size / f.sz)
      let total_fee := close_fee + position_fee
      let adjusted_pnl := (f.px - lot.price) * close_size - total_fee
      let record : TradeRecord :=
        ⟨sym, "Sell", "long", lot.price, f.px, close_size, adjusted_pnl,
          total_fee, f.time, lot.timestamp, f.time - lot.timestamp⟩
      if lot.size ≤ close_size then
        let next := flipCloseLongs sym f (remaining - lot.size) rest
        (next.1, close_size + next.2.1, record :: next.2.2)
      else
        (⟨lot.size - close_size, lot.price, lot.timestamp, lot.fee⟩ :: rest,
          close_size, [record])
    else (lot :: rest, 0, [])

/-- The `while remaining_size > 0 and open_positions['short']` loop of the
`'Short > Long'` branch, mirror image of `flipCloseLongs`. -/
def flipCloseShorts (sym : String) (f : Fill) :
    ℚ → List OpenLot → List OpenLot × ℚ × List TradeRecord
  | _, [] => ([], 0, [])
  | remaining, lot :: rest =>
    if 0 < remaining then
      let close_size := min lot.size remaining
      let position_fee := lot.fee * (close_size / lot.size)
      let close_fee := f.fee * (close_size / f.sz)
      let total_fee := close_fee + position_fee
      let adjusted_pnl := (lot.price - f.px) * close_size - total_fee
      let record : TradeRecord :=
        ⟨sym, "Buy", "short", lot.price, f.px, close_size, adjusted_pnl,
          total_fee, f.time, lot.timestamp, f.time - lot.timestamp⟩
      if lot.size ≤ close_size then
        let next := flipCloseShorts sym f (remaining - lot.size) rest
        (next.1, close_size + next.2.1, record :: next.2.2)
      else
        (⟨lot.size - close_size, lot.price, lot.timestamp, lot.fee⟩ :: rest,
          close_size, [record])
    else (lot :: rest, 0, [])

/-- One step of `_process_raw_trades`' per-fill dispatch on the direction
tag, for the symbol's ledger.  Returns the updated ledger and the records
appended to `formatted_trades` by this fill. -/
def processFill (sym : String) (led : Ledger) (f : Fill) :
    Ledger × List TradeRecord :=
  match f.dir with
  | .openLong =>
    (⟨led.long ++ [⟨f.sz, f.px, f.time, f.fee⟩], led.short⟩, [])
  | .openShort =>
    (⟨led.long, led.short ++ [⟨f.sz, f.px, f.time, f.fee⟩]⟩, [])
  | .closeLong =>
    match led.long with
    | [] => (led, [])
    | lot :: rest =>
      let total_fee := f.fee + lot.fee
      let adjusted_pnl := (f.px - lot.price) * f.sz - total_fee
      let record : TradeRecord :=
        ⟨sym, "Sell", "long", lot.price, f.px, f.sz, adjusted_pnl,
          total_fee, f.time, lot.timestamp, f.time - lot.timestamp⟩
      if lot.size ≤ f.sz then
        (⟨consumeRemaining (f.sz - lot.size) rest, led.short⟩, [record])
      else
        (⟨⟨lot.size - f.sz, lot.price, lot.timestamp, lot.fee⟩ :: rest,
            led.short⟩, [record])
  | .closeShort =>
    match led.short with
    | [] => (led, [])
    | lot :: rest =>
      let total_fee := f.fee + lot.fee
      let adjusted_pnl := (lot.price - f.px) * f.sz - total_fee
      let record : TradeRecord :=
        ⟨sym, "Buy", "short", lot.price, f.px, f.sz, adjusted_pnl,
          total_fee, f.time, lot.timestamp, f.time - lot.timestamp⟩
      if lot.size ≤ f.sz then
        (⟨led.long, consumeRemaining (f.sz - lot.size) rest⟩, [record])
      else
        (⟨led.long, ⟨lot.size - f.sz, lot.price, lot.timestamp, lot.fee⟩
            :: rest⟩, [record])
  | .shortToLong =>
    let step := flipCloseShorts sym f f.sz led.short
    let new_long_size := f.sz - step.2.1
    let longs :=
      if 0 < new_long_size then
        led.long ++ [⟨new_long_size, f.px, f.time, f.fee * (new_long_size / f.sz)⟩]
      else led.long
    (⟨longs, step.1⟩, step.2.2)
  | .longToShort =>
    let step := flipCloseLongs sym f f.sz led.long
    let new_short_size := f.sz - step.2.1
    let shorts :=
      if 0 < new_short_size then
        led.short ++ [⟨new_short_size, f.px, f.time, f.fee * (new_short_size / f.sz)⟩]
      else led.short
    (⟨step.1, shorts⟩, step.2.2)

/-- Fold `processFill` over a chronologically ordered fill stream of one
symbol, collecting emitted records in order (the per-symbol body of
`_process_raw_trades` after the sort by timestamp). -/
def processFills (sym : String) (led : Ledger) : List Fill → Ledger × List TradeRecord
  | [] => (led, [])
  | f :: fs =>
    let step := processFill sym led f
    let rest := processFills sym step.1 fs
    (rest.1, step.2 ++ rest.2)

/-- A trade dict as passed to `CacheManager.cache_trades` and returned by
`get_cached_trades` / the exchange fetchers: the `symbol` key may be absent,
`updatedTime` is the exit timestamp (ms, numeric value of the stored
string), and `payload` stands for the remaining fields (side, prices, qty,
pnl, raw json, …), which the cache copies around but never inspects. -/
structure TradeDict where
  symbol : Option String
  updatedTime : ℤ
  payload : String
deriving DecidableEq, Repr

/-- A row of the `trades` table: the `symbol` and `updatedTime` columns
(the deduplication key) plus `payload` standing for the remaining columns
(side, prices, qty, pnl, roi, raw_data, …). -/
structure TradeRow where
  symbol : String
  updatedTime : ℤ
  payload : String
deriving DecidableEq, Repr

/-- A row of the `cache_ranges` table: scope (`NULL` symbol means "all
symbols"), oldest/newest cached trade timestamp (ms, numeric value of the
stored string) and `last_updated`. -/
structure RangeRow where
  symbol : Option String
  oldest_timestamp : ℤ
  newest_timestamp : ℤ
  last_updated : ℤ
deriving DecidableEq, Repr

/-- The persistent store: the two tables managed by `CacheManager`. -/
structure DbState where
  trades : List TradeRow
  cache_ranges : List RangeRow
deriving DecidableEq, Repr

/-- `CacheManager.get_cached_range`: the first `cache_ranges` row whose
symbol column equals the requested scope (`fetchone`). -/
def get_cached_range (db : DbState) (symbol : Option String) : Option RangeRow :=
  db.cache_ranges.find? (fun r => decide (r.symbol = symbol))

/-- `CacheManager.get_uncached_ranges`: with no cached range the whole
request is uncached; otherwise up to two gaps, `(start, oldest-1)` when
`start < oldest` and `(newest+1, end)` when `end > newest`. -/
def get_uncached_ranges (cached_range : Option RangeRow)
    (start_time end_time : ℤ) : List (ℤ × ℤ) :=
  match cached_range with
  | none => [(start_time, end_time)]
  | some cr =>
    (if start_time < cr.oldest_timestamp then
      [(start_time, cr.oldest_timestamp - 1)] else []) ++
    (if cr.newest_timestamp < end_time then
      [(cr.newest_timestamp + 1, end_time)] else [])

/-- The conjunctive WHERE clause shared by the `trades`-table queries:
symbol equality when a symbol is given, and numeric bounds on
`updatedTime` when given. -/
def tradeCond (symbol : Option String) (start_time end_time : Option ℤ)
    (r : TradeRow) : Bool :=
  (match symbol with | some s => decide (r.symbol = s) | none => true) &&
  (match start_time with | some st => decide (st ≤ r.updatedTime) | none => true) &&
  (match end_time with | some en => decide (r.updatedTime ≤ en) | none => true)

/-- Row-to-dict conversion performed by `get_cached_trades`: the stored
raw payload updated with the row's columns (so the dict's symbol is the
symbol column). -/
def rowToDict (r : TradeRow) : TradeDict :=
  ⟨some r.symbol, r.updatedTime, r.payload⟩

/-- `CacheManager.get_cached_trades`: all `trades` rows passing the
conjunctive filter, as dicts. -/
def get_cached_trades (db : DbState) (symbol : Option String)
    (start_time end_time : Option ℤ) : List TradeDict :=
  (db.trades.filter (tradeCond symbol start_time end_time)).map rowToDict

/-- The duplicate check of `CacheManager.cache_trades`: an existing row
matches a dict when the `updatedTime` columns agree and, when the dict has
a symbol, the symbol columns agree. -/
def tradeKeyMatches (t : TradeDict) (r : TradeRow) : Bool :=
  decide (r.updatedTime = t.updatedTime) &&
  (match t.symbol with | some s => decide (r.symbol = s) | none => true)

/-- The `insert_data` row built by `cache_trades` for a dict (absent keys
default to the empty string). -/
def rowOfDict (t : TradeDict) : TradeRow :=
  ⟨t.symbol.getD "", t.updatedTime, t.payload⟩

/-- One iteration of the `for trade in trades` loop of `cache_trades`:
insert the row iff no existing row matches the key. -/
def insertTrade (rows : List TradeRow) (t : TradeDict) : List TradeRow :=
  if rows.any (tradeKeyMatches t) then rows else rows ++ [rowOfDict t]

/-- `CacheManager.cache_trades`: insert each dict of the batch in order,
inside one transaction, skipping dicts whose key is already present. -/
def cache_trades (db : DbState) (trades : List TradeDict) : DbState :=
  ⟨trades.foldl insertTrade db.trades, db.cache_ranges⟩

/-- SQL `MIN` over a selected column: `none` on an empty selection. -/
def listMin : List ℤ → Option ℤ
  | [] => none
  | x :: xs =>
    match listMin xs with
    | none => some x
    | some m => some (min x m)

/-- SQL `MAX` over a selected column: `none` on an empty selection. -/
def listMax : List ℤ → Option ℤ
  | [] => none
  | x :: xs =>
    match listMax xs with
    | none => some x
    | some m => some (max x m)

/-- The `updatedTime` column of the trades rows passing the conjunctive
filter of `update_cache_ranges` (the selection whose MIN/MAX are the
observed oldest/newest timestamps). -/
def observed_uts (db : DbState) (symbol : Option String)
    (start_time end_time : Option ℤ) : List ℤ :=
  (db.trades.filter (tradeCond symbol start_time end_time)).map
    (fun r => r.updatedTime)

/-- `CacheManager.update_cache_ranges`: compute the observed oldest/newest
`updatedTime` among the trades rows passing the filter; when none, do
nothing; otherwise widen the scope's existing range row with `min`/`max`
(updating `last_updated`), or insert a fresh row for the scope. -/
def update_cache_ranges (db : DbState) (symbol : Option String)
    (start_time end_time : Option ℤ) (now : ℤ) : DbState :=
  match listMin (observed_uts db symbol start_time end_time),
      listMax (observed_uts db symbol start_time end_time) with
  | some oldest, some newest =>
    match db.cache_ranges.find? (fun r => decide (r.symbol = symbol)) with
    | some ex =>
      ⟨db.trades,
        db.cache_ranges.map (fun r =>
          if r.symbol = symbol then
            ⟨r.symbol, min ex.oldest_timestamp oldest,
              max ex.newest_timestamp newest, now⟩
          else r)⟩
    | none =>
      ⟨db.trades, db.cache_ranges ++ [⟨symbol, oldest, newest, now⟩]⟩
  | _, _ => db

/-- Modelled from the spec: `CacheManager.clear_database` is called by the
`/api/erase-db` route but its definition is missing from the sources at
hand; per the spec, `clear()` is an "administrative wipe of all stored
records and ranges". -/
def clear_database (_db : DbState) : DbState := ⟨[], []⟩

/-- The `/api/erase-db` route `erase_database` of `api_routes.py`: with an
available cache backend, clear the database and report success; otherwise
leave it alone and report failure. -/
def erase_database (db : DbState) (cacheAvailable : Bool) : DbState × Bool :=
  if cacheAvailable then (clear_database db, true) else (db, false)

/-- C1: gap computation.  For a cached range [100,200] and request [50,250],
`get_uncached_ranges` returns exactly [(50,99),(201,250)]; for every request
[s,e] with oldest ≤ s and e ≤ newest it returns the empty list; with no
cached range it returns [(s,e)]. -/
theorem get_uncached_ranges_correct :
    get_uncached_ranges (some ⟨none, 100, 200, 0⟩) 50 250 = [(50, 99), (201, 250)] ∧
    (∀ (cr : RangeRow) (s e : ℤ), cr.oldest_timestamp ≤ s → e ≤ cr.newest_timestamp →
      get_uncached_ranges (some cr) s e = []) ∧
    (∀ s e : ℤ, get_uncached_ranges none s e = [(s, e)]) := by
  refine ⟨by decide, ?_, fun s e => rfl⟩
  intro cr s e h1 h2
  simp [get_uncached_ranges, not_lt.mpr h1, not_lt.mpr h2]

/-- Closed instance of `get_uncached_ranges_correct`: a request fully inside
the cached range [100,200] yields no gaps. -/
theorem get_uncached_ranges_correct_witness :
    get_uncached_ranges (some ⟨none, 100, 200, 0⟩) 120 180 = [] :=
  get_uncached_ranges_correct.2.1 ⟨none, 100, 200, 0⟩ 120 180 (by decide) (by decide)

/-- C2: simple FIFO match.  Open-Long(size 10, price 100, fee 1) then
Close-Long(size 10, price 110, fee 1) on one symbol emit exactly one
TradeRecord with entry 100, exit 110, qty 10, total fee 2 and
PnL (110-100)*10-2 = 98, and leave both lot queues empty. -/
theorem simple_fifo_match :
    processFills "BTC" Ledger.empty
      [⟨.openLong, 10, 100, 0, 1⟩, ⟨.closeLong, 10, 110, 1000, 1⟩] =
    (Ledger.empty, [⟨"BTC", "Sell", "long", 100, 110, 10, 98, 2, 1000, 0, 1000⟩]) := by
  norm_num [processFills, processFill, consumeRemaining, Ledger.empty]

/-- C7: unmatched close.  A Close-Long (resp. Close-Short) fill arriving
when the long (resp. short) lot queue is empty emits no TradeRecord and
leaves the ledger unchanged. -/
theorem unmatched_close_dropped (sym : String) (f : Fill) (led : Ledger) :
    (f.dir = Dir.closeLong → led.long = [] → processFill sym led f = (led, [])) ∧
    (f.dir = Dir.closeShort → led.short = [] → processFill sym led f = (led, [])) := by
  constructor <;> intro hd hq <;> simp [processFill, hd, hq]

/-- Closed instance of `unmatched_close_dropped`: a Close-Long fill on an
empty ledger is dropped. -/
theorem unmatched_close_dropped_witness :
    processFill "X" Ledger.empty ⟨.closeLong, 1, 50, 0, 0⟩ = (Ledger.empty, []) :=
  (unmatched_close_dropped "X" ⟨.closeLong, 1, 50, 0, 0⟩ Ledger.empty).1 rfl rfl

/-- C9: administrative clear.  With an available cache backend the erase-db
call wipes all stored trade records and all cache ranges and reports
success: afterwards every trade query returns no rows and no scope has a
cached range. -/
theorem erase_database_clears (db : DbState) :
    erase_database db true = (⟨[], []⟩, true) ∧
    (∀ (sym : Option String) (st en : Option ℤ),
      get_cached_trades (erase_database db true).1 sym st en = []) ∧
    (∀ scope : Option String, get_cached_range (erase_database db true).1 scope = none) :=
  ⟨rfl, fun _ _ _ => rfl, fun _ => rfl⟩

lemma tradeKeyMatches_rowOfDict (t : TradeDict) :
    tradeKeyMatches t (rowOfDict t) = true := by
  obtain ⟨s, u, p⟩ := t
  cases s <;> simp [tradeKeyMatches, rowOfDict]

lemma any_insertTrade_self (rows : List TradeRow) (t : TradeDict) :
    (insertTrade rows t).any (tradeKeyMatches t) = true := by
  by_cases h : rows.any (tradeKeyMatches t) <;>
    simp [insertTrade, h, tradeKeyMatches_rowOfDict]

lemma any_insertTrade_mono (rows : List TradeRow) (t u : TradeDict)
    (h : rows.any (tradeKeyMatches t) = true) :
    (insertTrade rows u).any (tradeKeyMatches t) = true := by
  by_cases h2 : rows.any (tradeKeyMatches u) <;> simp [insertTrade, h2, h]

lemma any_foldl_insertTrade (ts : List TradeDict) (rows : List TradeRow)
    (t : TradeDict) (h : rows.any (tradeKeyMatches t) = true) :
    (ts.foldl insertTrade rows).any (tradeKeyMatches t) = true := by
  induction ts generalizing rows with
  | nil => exact h
  | cons u us ih => exact ih (insertTrade rows u) (any_insertTrade_mono rows t u h)

lemma mem_batch_matched (ts : List TradeDict) (rows : List TradeRow) :
    ∀ t ∈ ts, (ts.foldl insertTrade rows).any (tradeKeyMatches t) = true := by
  induction ts generalizing rows with
  | nil => intro t ht; cases ht
  | cons u us ih =>
    intro t ht
    rcases List.mem_cons.mp ht with h | h
    · subst h
      exact any_foldl_insertTrade us (insertTrade rows t) t
        (any_insertTrade_self rows t)
    · exact ih (insertTrade rows u) t h

lemma foldl_insertTrade_of_matched (ts : List TradeDict) (rows : List TradeRow)
    (h : ∀ t ∈ ts, rows.any (tradeKeyMatches t) = true) :
    ts.foldl insertTrade rows = rows := by
  induction ts with
  | nil => rfl
  | cons u us ih =>
    have hu : insertTrade rows u = rows := by
      simp [insertTrade, h u (List.mem_cons_self u us)]
    rw [List.foldl_cons, hu, ih (fun t ht => h t (List.mem_cons_of_mem u ht))]

/-- C6: idempotent store.  The upsert of `cache_trades` is idempotent on the
key (symbol, updatedTime): a dict stored twice within one batch yields
exactly one matching row, re-inserting a whole batch changes nothing, and
in particular the stored row count after a duplicate batch insert equals
the count after a single insert. -/
theorem cache_trades_idempotent :
    (∀ (db : DbState) (t : TradeDict),
      (db.trades.filter (tradeKeyMatches t)).length = 0 →
      ((cache_trades db [t, t]).trades.filter (tradeKeyMatches t)).length = 1) ∧
    (∀ (db : DbState) (ts : List TradeDict),
      cache_trades (cache_trades db ts) ts = cache_trades db ts) ∧
    (∀ (db : DbState) (ts : List TradeDict),
      (cache_trades (cache_trades db ts) ts).trades.length =
        (cache_trades db ts).trades.length) := by
  have key : ∀ (db : DbState) (ts : List TradeDict),
      cache_trades (cache_trades db ts) ts = cache_trades db ts := by
    intro db ts
    unfold cache_trades
    simp only [DbState.mk.injEq, and_true]
    exact foldl_insertTrade_of_matched ts (ts.foldl insertTrade db.trades)
      (mem_batch_matched ts db.trades)
  refine ⟨?_, key, fun db ts => by rw [key]⟩
  intro db t h
  have hnone : db.trades.filter (tradeKeyMatches t) = [] :=
    List.length_eq_zero.mp h
  have hany : db.trades.any (tradeKeyMatches t) = false := by
    rw [List.any_eq_false]
    intro r hr
    intro hmatch
    have : r ∈ db.trades.filter (tradeKeyMatches t) :=
      List.mem_filter.mpr ⟨hr, hmatch⟩
    simp [hnone] at this
  have h1 : insertTrade db.trades t = db.trades ++ [rowOfDict t] := by
    simp [insertTrade, hany]
  have h2 : insertTrade (db.trades ++ [rowOfDict t]) t =
      db.trades ++ [rowOfDict t] := by
    simp [insertTrade, List.any_append, tradeKeyMatches_rowOfDict]
  show ((([t, t].foldl insertTrade db.trades)).filter (tradeKeyMatches t)).length = 1
  rw [List.foldl_cons, List.foldl_cons, List.foldl_nil, h1, h2,
    List.filter_append, hnone]
  simp [tradeKeyMatches_rowOfDict]

/-- Closed instance of `cache_trades_idempotent`: storing one dict twice
into an empty store leaves exactly one matching row. -/
theorem cache_trades_idempotent_witness :
    (((cache_trades ⟨[], []⟩ [⟨some "BTC", 5, "p"⟩, ⟨some "BTC", 5, "p"⟩]).trades.filter
      (tradeKeyMatches ⟨some "BTC", 5, "p"⟩)).length = 1) :=
  cache_trades_idempotent.1 ⟨[], []⟩ ⟨some "BTC", 5, "p"⟩ rfl

/-- Total open size held in a lot queue. -/
def lotSum (q : List OpenLot) : ℚ := (q.map OpenLot.size).sum

lemma lotSum_cons (lot : OpenLot) (rest : List OpenLot) :
    lotSum (lot :: rest) = lot.size + lotSum rest := by
  simp [lotSum]

lemma lotSum_nonneg (q : List OpenLot) (h : ∀ l ∈ q, 0 < l.size) :
    0 ≤ lotSum q := by
  induction q with
  | nil => simp [lotSum]
  | cons lot rest ih =>
    have h1 : 0 < lot.size := h lot (List.mem_cons_self lot rest)
    have h2 : 0 ≤ lotSum rest := ih (fun l hl => h l (List.mem_cons_of_mem lot hl))
    rw [lotSum_cons]
    linarith

lemma lotSum_consumeRemaining (rem : ℚ) (q : List OpenLot)
    (hq : ∀ l ∈ q, 0 < l.size) (hrem : 0 ≤ rem) :
    lotSum (consumeRemaining rem q) = lotSum q - min rem (lotSum q) := by
  induction q generalizing rem with
  | nil =>
    simp [consumeRemaining, lotSum, min_eq_right hrem]
  | cons lot rest ih =>
    have hlot : 0 < lot.size := hq lot (List.mem_cons_self lot rest)
    have hrest : ∀ l ∈ rest, 0 < l.size :=
      fun l hl => hq l (List.mem_cons_of_mem lot hl)
    have hsum : 0 ≤ lotSum rest := lotSum_nonneg rest hrest
    rcases lt_or_le 0 rem with hpos | hle
    · rcases le_or_lt lot.size rem with hbig | hsmall
      · rw [show consumeRemaining rem (lot :: rest) =
            consumeRemaining (rem - lot.size) rest by
          simp [consumeRemaining, hpos, hbig]]
        rw [ih (rem - lot.size) hrest (by linarith), lotSum_cons]
        rcases le_total (rem - lot.size) (lotSum rest) with hc | hc
        · rw [min_eq_left hc, min_eq_left (by linarith : rem ≤ lot.size + lotSum rest)]
          ring
        · rw [min_eq_right hc, min_eq_right (by linarith : lot.size + lotSum rest ≤ rem)]
          ring
      · rw [show consumeRemaining rem (lot :: rest) =
            ⟨lot.size - rem, lot.price, lot.timestamp, lot.fee⟩ :: rest by
          simp [consumeRemaining, hpos, not_le.mpr hsmall]]
        rw [lotSum_cons, lotSum_cons,
          min_eq_left (by linarith : rem ≤ lot.size + lotSum rest)]
        ring
    · have hzero : rem = 0 := le_antisymm hle hrem
      subst hzero
      rw [show consumeRemaining 0 (lot :: rest) = lot :: rest by
        simp [consumeRemaining]]
      rw [min_eq_left (by linarith [lotSum_nonneg (lot :: rest) hq] :
        (0 : ℚ) ≤ lotSum (lot :: rest))]
      ring

/-- C4: multi-lot close without re-pricing.  A Close-Long (resp.
Close-Short) fill hitting a non-empty matching queue emits exactly one
TradeRecord priced against the oldest lot; a close larger than the oldest
lot pops/reduces further lots via `consumeRemaining` (which absorbs exactly
`min remainder (lotSum rest)` of open size) without emitting further
records and without re-pricing the record; a close smaller than the oldest
lot only shrinks that lot's size and removes nothing. -/
theorem close_emits_one_record (sym : String) (f : Fill) (lot : OpenLot)
    (rest other : List OpenLot) :
    (f.dir = Dir.closeLong →
      processFill sym ⟨lot :: rest, other⟩ f =
        (⟨if lot.size ≤ f.sz then consumeRemaining (f.sz - lot.size) rest
          else ⟨lot.size - f.sz, lot.price, lot.timestamp, lot.fee⟩ :: rest,
          other⟩,
         [⟨sym, "Sell", "long", lot.price, f.px, f.sz,
            (f.px - lot.price) * f.sz - (f.fee + lot.fee), f.fee + lot.fee,
            f.time, lot.timestamp, f.time - lot.timestamp⟩])) ∧
    (f.dir = Dir.closeShort →
      processFill sym ⟨other, lot :: rest⟩ f =
        (⟨other,
          if lot.size ≤ f.sz then consumeRemaining (f.sz - lot.size) rest
          else ⟨lot.size - f.sz, lot.price, lot.timestamp, lot.fee⟩ :: rest⟩,
         [⟨sym, "Buy", "short", lot.price, f.px, f.sz,
            (lot.price - f.px) * f.sz - (f.fee + lot.fee), f.fee + lot.fee,
            f.time, lot.timestamp, f.time - lot.timestamp⟩])) ∧
    ((∀ l ∈ rest, 0 < l.size) → lot.size ≤ f.sz →
      lotSum (consumeRemaining (f.sz - lot.size) rest) =
        lotSum rest - min (f.sz - lot.size) (lotSum rest)) := by
  refine ⟨?_, ?_, ?_⟩
  · intro hd
    simp only [processFill, hd]
    split <;> simp_all
  · intro hd
    simp only [processFill, hd]
    split <;> simp_all
  · intro hrest hle
    exact lotSum_consumeRemaining (f.sz - lot.size) rest hrest (by linarith)

/-- Closed instance of `close_emits_one_record`: Close-Long(15) against
lots of size 10 and 8 emits one record priced at the first lot and reduces
the second lot to size 3. -/
theorem close_emits_one_record_witness :
    processFill "X" ⟨[⟨10, 100, 0, 1⟩, ⟨8, 105, 1, 1⟩], []⟩
        ⟨.closeLong, 15, 110, 2000, 1⟩ =
      (⟨if (10 : ℚ) ≤ 15 then consumeRemaining (15 - 10) [⟨8, 105, 1, 1⟩]
        else ⟨(10 : ℚ) - 15, 100, 0, 1⟩ :: [⟨8, 105, 1, 1⟩], []⟩,
       [⟨"X", "Sell", "long", 100, 110, 15, ((110 : ℚ) - 100) * 15 - (1 + 1),
          1 + 1, 2000, 0, 2000 - 0⟩]) :=
  (close_emits_one_record "X" ⟨.closeLong, 15, 110, 2000, 1⟩ ⟨10, 100, 0, 1⟩
    [⟨8, 105, 1, 1⟩] []).1 rfl

lemma flipCloseLongs_cons_stop (sym : String) (f : Fill) (rem : ℚ)
    (lot : OpenLot) (rest : List OpenLot) (h : ¬ 0 < rem) :
    flipCloseLongs sym f rem (lot :: rest) = (lot :: rest, 0, []) := by
  simp [flipCloseLongs, h]

lemma flipCloseLongs_cons_full (sym : String) (f : Fill) (rem : ℚ)
    (lot : OpenLot) (rest : List OpenLot) (hpos : 0 < rem)
    (hfull : lot.size ≤ rem) :
    flipCloseLongs sym f rem (lot :: rest) =
      ((flipCloseLongs sym f (rem - lot.size) rest).1,
       lot.size + (flipCloseLongs sym f (rem - lot.size) rest).2.1,
       ⟨sym, "Sell", "long", lot.price, f.px, lot.size,
         (f.px - lot.price) * lot.size -
           (f.fee * (lot.size / f.sz) + lot.fee * (lot.size / lot.size)),
         f.fee * (lot.size / f.sz) + lot.fee * (lot.size / lot.size),
         f.time, lot.timestamp, f.time - lot.timestamp⟩ ::
         (flipCloseLongs sym f (rem - lot.size) rest).2.2) := by
  have hmin : min lot.size rem = lot.size := min_eq_left hfull
  simp [flipCloseLongs, hpos, hmin]

lemma flipCloseLongs_cons_small (sym : String) (f : Fill) (rem : ℚ)
    (lot : OpenLot) (rest : List OpenLot) (hpos : 0 < rem)
    (hpart : rem < lot.size) :
    flipCloseLongs sym f rem (lot :: rest) =
      (⟨lot.size - rem, lot.price, lot.timestamp, lot.fee⟩ :: rest, rem,
       [⟨sym, "Sell", "long", lot.price, f.px, rem,
          (f.px - lot.price) * rem -
            (f.fee * (rem / f.sz) + lot.fee * (rem / lot.size)),
          f.fee * (rem / f.sz) + lot.fee * (rem / lot.size),
          f.time, lot.timestamp, f.time - lot.timestamp⟩]) := by
  have hmin : min lot.size rem = rem := min_eq_right (le_of_lt hpart)
  have hno : ¬ lot.size ≤ rem := not_le.mpr hpart
  simp [flipCloseLongs, hpos, hmin, hno]

lemma flipCloseShorts_cons_stop (sym : String) (f : Fill) (rem : ℚ)
    (lot : OpenLot) (rest : List OpenLot) (h : ¬ 0 < rem) :
    flipCloseShorts sym f rem (lot :: rest) = (lot :: rest, 0, []) := by
  simp [flipCloseShorts, h]

lemma flipCloseShorts_cons_full (sym : String) (f : Fill) (rem : ℚ)
    (lot : OpenLot) (rest : List OpenLot) (hpos : 0 < rem)
    (hfull : lot.size ≤ rem) :
    flipCloseShorts sym f rem (lot :: rest) =
      ((flipCloseShorts sym f (rem - lot.size) rest).1,
       lot.size + (flipCloseShorts sym f (rem - lot.size) rest).2.1,
       ⟨sym, "Buy", "short", lot.price, f.px, lot.size,
         (lot.price - f.px) * lot.size -
           (f.fee * (lot.size / f.sz) + lot.fee * (lot.size / lot.size)),
         f.fee * (lot.size / f.sz) + lot.fee * (lot.size / lot.size),
         f.time, lot.timestamp, f.time - lot.timestamp⟩ ::
         (flipCloseShorts sym f (rem - lot.size) rest).2.2) := by
  have hmin : min lot.size rem = lot.size := min_eq_left hfull
  simp [flipCloseShorts, hpos, hmin]

lemma flipCloseShorts_cons_small (sym : String) (f : Fill) (rem : ℚ)
    (lot : OpenLot) (rest : List OpenLot) (hpos : 0 < rem)
    (hpart : rem < lot.size) :
    flipCloseShorts sym f rem (lot :: rest) =
      (⟨lot.size - rem, lot.price, lot.timestamp, lot.fee⟩ :: rest, rem,
       [⟨sym, "Buy", "short", lot.price, f.px, rem,
          (lot.price - f.px) * rem -
            (f.fee * (rem / f.sz) + lot.fee * (rem / lot.size)),
          f.fee * (rem / f.sz) + lot.fee * (rem / lot.size),
          f.time, lot.timestamp, f.time - lot.timestamp⟩]) := by
  have hmin : min lot.size rem = rem := min_eq_right (le_of_lt hpart)
  have hno : ¬ lot.size ≤ rem := not_le.mpr hpart
  simp [flipCloseShorts, hpos, hmin, hno]

lemma consumeRemaining_pos (rem : ℚ) (q : List OpenLot)
    (hq : ∀ l ∈ q, 0 < l.size) :
    ∀ l ∈ consumeRemaining rem q, 0 < l.size := by
  induction q generalizing rem with
  | nil => intro l hl; simp [consumeRemaining] at hl
  | cons lot rest ih =>
    have hlot := hq lot (List.mem_cons_self lot rest)
    have hrest : ∀ x ∈ rest, 0 < x.size :=
      fun x hx => hq x (List.mem_cons_of_mem lot hx)
    intro l hl
    by_cases hpos : 0 < rem
    · by_cases hfull : lot.size ≤ rem
      · rw [show consumeRemaining rem (lot :: rest) =
            consumeRemaining (rem - lot.size) rest by
          simp [consumeRemaining, hpos, hfull]] at hl
        exact ih (rem - lot.size) hrest l hl
      · rw [show consumeRemaining rem (lot :: rest) =
            ⟨lot.size - rem, lot.price, lot.timestamp, lot.fee⟩ :: rest by
          simp [consumeRemaining, hpos, hfull]] at hl
        rcases List.mem_cons.mp hl with h1 | h1
        · subst h1; simp only; linarith [not_le.mp hfull]
        · exact hrest l h1
    · rw [show consumeRemaining rem (lot :: rest) = lot :: rest by
        simp [consumeRemaining, hpos]] at hl
      exact hq l hl

lemma flipCloseLongs_pos (sym : String) (f : Fill) (rem : ℚ)
    (q : List OpenLot) (hq : ∀ l ∈ q, 0 < l.size) :
    ∀ l ∈ (flipCloseLongs sym f rem q).1, 0 < l.size := by
  induction q generalizing rem with
  | nil => intro l hl; simp [flipCloseLongs] at hl
  | cons lot rest ih =>
    have hlot := hq lot (List.mem_cons_self lot rest)
    have hrest : ∀ x ∈ rest, 0 < x.size :=
      fun x hx => hq x (List.mem_cons_of_mem lot hx)
    intro l hl
    by_cases hpos : 0 < rem
    · by_cases hfull : lot.size ≤ rem
      · rw [flipCloseLongs_cons_full sym f rem lot rest hpos hfull] at hl
        exact ih (rem - lot.size) hrest l hl
      · rw [flipCloseLongs_cons_small sym f rem lot rest hpos
          (not_le.mp hfull)] at hl
        rcases List.mem_cons.mp hl with h1 | h1
        · subst h1; simp only; linarith [not_le.mp hfull]
        · exact hrest l h1
    · rw [flipCloseLongs_cons_stop sym f rem lot rest hpos] at hl
      exact hq l hl

lemma flipCloseShorts_pos (sym : String) (f : Fill) (rem : ℚ)
    (q : List OpenLot) (hq : ∀ l ∈ q, 0 < l.size) :
    ∀ l ∈ (flipCloseShorts sym f rem q).1, 0 < l.size := by
  induction q generalizing rem with
  | nil => intro l hl; simp [flipCloseShorts] at hl
  | cons lot rest ih =>
    have hlot := hq lot (List.mem_cons_self lot rest)
    have hrest : ∀ x ∈ rest, 0 < x.size :=
      fun x hx => hq x (List.mem_cons_of_mem lot hx)
    intro l hl
    by_cases hpos : 0 < rem
    · by_cases hfull : lot.size ≤ rem
      · rw [flipCloseShorts_cons_full sym f rem lot rest hpos hfull] at hl
        exact ih (rem - lot.size) hrest l hl
      · rw [flipCloseShorts_cons_small sym f rem lot rest hpos
          (not_le.mp hfull)] at hl
        rcases List.mem_cons.mp hl with h1 | h1
        · subst h1; simp only; linarith [not_le.mp hfull]
        · exact hrest l h1
    · rw [flipCloseShorts_cons_stop sym f rem lot rest hpos] at hl
      exact hq l hl

/-- Every lot held in either queue of the ledger has strictly positive size. -/
def LedgerPos (led : Ledger) : Prop :=
  (∀ l ∈ led.long, 0 < l.size) ∧ (∀ l ∈ led.short, 0 < l.size)

lemma processFill_pos (sym : String) (led : Ledger) (f : Fill)
    (hf : 0 < f.sz) (h : LedgerPos led) :
    LedgerPos (processFill sym led f).1 := by
  obtain ⟨hl, hs⟩ := h
  cases hd : f.dir
  case openLong =>
    simp only [processFill, hd]
    refine ⟨?_, hs⟩
    intro l hmem
    rcases List.mem_append.mp hmem with h1 | h1
    · exact hl l h1
    · simp at h1; subst h1; exact hf
  case openShort =>
    simp only [processFill, hd]
    refine ⟨hl, ?_⟩
    intro l hmem
    rcases List.mem_append.mp hmem with h1 | h1
    · exact hs l h1
    · simp at h1; subst h1; exact hf
  case closeLong =>
    simp only [processFill, hd]
    cases hq : led.long with
    | nil => exact ⟨hl, hs⟩
    | cons lot rest =>
      have hrest : ∀ x ∈ rest, 0 < x.size :=
        fun x hx => hl x (hq ▸ List.mem_cons_of_mem lot hx)
      by_cases hle : lot.size ≤ f.sz
      · simp only [hle, if_true]
        exact ⟨consumeRemaining_pos (f.sz - lot.size) rest hrest, hs⟩
      · simp only [hle, if_false]
        refine ⟨?_, hs⟩
        intro l hmem
        rcases List.mem_cons.mp hmem with h1 | h1
        · subst h1; simp only; linarith [not_le.mp hle]
        · exact hrest l h1
  case closeShort =>
    simp only [processFill, hd]
    cases hq : led.short with
    | nil => exact ⟨hl, hs⟩
    | cons lot rest =>
      have hrest : ∀ x ∈ rest, 0 < x.size :=
        fun x hx => hs x (hq ▸ List.mem_cons_of_mem lot hx)
      by_cases hle : lot.size ≤ f.sz
      · simp only [hle, if_true]
        exact ⟨hl, consumeRemaining_pos (f.sz - lot.size) rest hrest⟩
      · simp only [hle, if_false]
        refine ⟨hl, ?_⟩
        intro l hmem
        rcases List.mem_cons.mp hmem with h1 | h1
        · subst h1; simp only; linarith [not_le.mp hle]
        · exact hrest l h1
  case shortToLong =>
    simp only [processFill, hd]
    refine ⟨?_, flipCloseShorts_pos sym f f.sz led.short hs⟩
    intro l hmem
    split at hmem
    · rename_i hcond
      rcases List.mem_append.mp hmem with h1 | h1
      · exact hl l h1
      · simp at h1; subst h1; simpa using hcond
    · exact hl l hmem
  case longToShort =>
    simp only [processFill, hd]
    refine ⟨flipCloseLongs_pos sym f f.sz led.long hl, ?_⟩
    intro l hmem
    split at hmem
    · rename_i hcond
      rcases List.mem_append.mp hmem with h1 | h1
      · exact hs l h1
      · simp at h1; subst h1; simpa using hcond
    · exact hs l hmem

/-- C10: lot-size positivity.  For every fill stream whose fills all have
size > 0, processing preserves strict positivity of every open lot in both
queues: partial closes and flip consumptions reduce a lot by strictly less
than its size, and fully consumed lots are removed rather than left at 0. -/
theorem matcher_preserves_lot_positivity (sym : String) (fills : List Fill)
    (led : Ledger) (hf : ∀ f ∈ fills, 0 < f.sz) (h : LedgerPos led) :
    LedgerPos (processFills sym led fills).1 := by
  induction fills generalizing led with
  | nil => exact h
  | cons f fs ih =>
    have h1 : LedgerPos (processFill sym led f).1 :=
      processFill_pos sym led f (hf f (List.mem_cons_self f fs)) h
    have h2 := ih (processFill sym led f).1
      (fun g hg => hf g (List.mem_cons_of_mem f hg)) h1
    simpa [processFills] using h2

/-- Closed instance of `matcher_preserves_lot_positivity`: after an
Open-Long(10) followed by a partially matched Close-Long(4), all remaining
lots still have positive size. -/
theorem matcher_preserves_lot_positivity_witness :
    LedgerPos (processFills "X" Ledger.empty
      [⟨.openLong, 10, 100, 0, 1⟩, ⟨.closeLong, 4, 110, 1, 1⟩]).1 := by
  apply matcher_preserves_lot_positivity
  · intro f hf
    rcases List.mem_cons.mp hf with h | h
    · subst h; norm_num
    · simp at h; subst h; norm_num
  · refine ⟨fun l hl => ?_, fun l hl => ?_⟩ <;> cases hl

lemma flipCloseLongs_zero (sym : String) (f : Fill) (rem : ℚ)
    (q : List OpenLot) (h : ¬ 0 < rem) :
    flipCloseLongs sym f rem q = (q, 0, []) := by
  cases q with
  | nil => rfl
  | cons lot rest => exact flipCloseLongs_cons_stop sym f rem lot rest h

lemma flipCloseLongs_spec (sym : String) (f : Fill) (rem : ℚ)
    (q : List OpenLot) (hq : ∀ l ∈ q, 0 < l.size) (hrem : 0 < rem) :
    (flipCloseLongs sym f rem q).2.1 = min rem (lotSum q) ∧
    ((flipCloseLongs sym f rem q).1 = [] ∨
      (flipCloseLongs sym f rem q).2.1 = rem) ∧
    ((flipCloseLongs sym f rem q).2.2.map TradeRecord.qty).sum =
      (flipCloseLongs sym f rem q).2.1 ∧
    (flipCloseLongs sym f rem q).1.length ≤ q.length ∧
    ((flipCloseLongs sym f rem q).2.2.length =
        q.length - (flipCloseLongs sym f rem q).1.length ∨
      (flipCloseLongs sym f rem q).2.2.length =
        q.length - (flipCloseLongs sym f rem q).1.length + 1) := by
  induction q generalizing rem with
  | nil =>
    refine ⟨?_, Or.inl rfl, rfl, le_refl _, Or.inl rfl⟩
    simp [flipCloseLongs, lotSum, min_eq_right (le_of_lt hrem)]
  | cons lot rest ih =>
    have hlot : 0 < lot.size := hq lot (List.mem_cons_self lot rest)
    have hrest : ∀ x ∈ rest, 0 < x.size :=
      fun x hx => hq x (List.mem_cons_of_mem lot hx)
    have hsum : 0 ≤ lotSum rest := lotSum_nonneg rest hrest
    by_cases hfull : lot.size ≤ rem
    · rw [flipCloseLongs_cons_full sym f rem lot rest hrem hfull]
      by_cases h0 : 0 < rem - lot.size
      · obtain ⟨ih1, ih2, ih3, ih4, ih5⟩ := ih (rem - lot.size) hrest h0
        refine ⟨?_, ?_, ?_, ?_, ?_⟩
        · rw [ih1, lotSum_cons]
          rcases le_total (rem - lot.size) (lotSum rest) with hc | hc
          · rw [min_eq_left hc,
              min_eq_left (by linarith : rem ≤ lot.size + lotSum rest)]
            ring
          · rw [min_eq_right hc,
              min_eq_right (by linarith : lot.size + lotSum rest ≤ rem)]
        · rcases ih2 with h | h
          · exact Or.inl h
          · exact Or.inr (by rw [h]; ring)
        · simp only [List.map_cons, List.sum_cons, ih3]
        · simpa using Nat.le_succ_of_le ih4
        · rcases ih5 with h | h
          · exact Or.inl (by
              rw [List.length_cons, List.length_cons, h, Nat.sub_add_comm ih4])
          · exact Or.inr (by
              rw [List.length_cons, List.length_cons, h, Nat.sub_add_comm ih4])
      · have hz : rem = lot.size := by linarith [not_lt.mp h0]
        rw [flipCloseLongs_zero sym f (rem - lot.size) rest h0]
        refine ⟨?_, Or.inr (by rw [hz]; ring), by simp, by simp, ?_⟩
        · rw [lotSum_cons, min_eq_left (by linarith : rem ≤ lot.size + lotSum rest), hz]
          ring
        · exact Or.inl (by
            show 1 = rest.length + 1 - rest.length
            rw [Nat.add_sub_cancel_left])
    · have hpart : rem < lot.size := not_le.mp hfull
      rw [flipCloseLongs_cons_small sym f rem lot rest hrem hpart]
      refine ⟨?_, Or.inr rfl, by simp, by simp, ?_⟩
      · rw [lotSum_cons,
          min_eq_left (by linarith : rem ≤ lot.size + lotSum rest)]
      · exact Or.inr (by
          show 1 = (rest.length + 1) - (rest.length + 1) + 1
          rw [Nat.sub_self])

lemma flipCloseShorts_zero (sym : String) (f : Fill) (rem : ℚ)
    (q : List OpenLot) (h : ¬ 0 < rem) :
    flipCloseShorts sym f rem q = (q, 0, []) := by
  cases q with
  | nil => rfl
  | cons lot rest => exact flipCloseShorts_cons_stop sym f rem lot rest h

lemma flipCloseShorts_spec (sym : String) (f : Fill) (rem : ℚ)
    (q : List OpenLot) (hq : ∀ l ∈ q, 0 < l.size) (hrem : 0 < rem) :
    (flipCloseShorts sym f rem q).2.1 = min rem (lotSum q) ∧
    ((flipCloseShorts sym f rem q).1 = [] ∨
      (flipCloseShorts sym f rem q).2.1 = rem) ∧
    ((flipCloseShorts sym f rem q).2.2.map TradeRecord.qty).sum =
      (flipCloseShorts sym f rem q).2.1 ∧
    (flipCloseShorts sym f rem q).1.length ≤ q.length ∧
    ((flipCloseShorts sym f rem q).2.2.length =
        q.length - (flipCloseShorts sym f rem q).1.length ∨
      (flipCloseShorts sym f rem q).2.2.length =
        q.length - (flipCloseShorts sym f rem q).1.length + 1) := by
  induction q generalizing rem with
  | nil =>
    refine ⟨?_, Or.inl rfl, rfl, le_refl _, Or.inl rfl⟩
    simp [flipCloseShorts, lotSum, min_eq_right (le_of_lt hrem)]
  | cons lot rest ih =>
    have hlot : 0 < lot.size := hq lot (List.mem_cons_self lot rest)
    have hrest : ∀ x ∈ rest, 0 < x.size :=
      fun x hx => hq x (List.mem_cons_of_mem lot hx)
    have hsum : 0 ≤ lotSum rest := lotSum_nonneg rest hrest
    by_cases hfull : lot.size ≤ rem
    · rw [flipCloseShorts_cons_full sym f rem lot rest hrem hfull]
      by_cases h0 : 0 < rem - lot.size
      · obtain ⟨ih1, ih2, ih3, ih4, ih5⟩ := ih (rem - lot.size) hrest h0
        refine ⟨?_, ?_, ?_, ?_, ?_⟩
        · rw [ih1, lotSum_cons]
          rcases le_total (rem - lot.size) (lotSum rest) with hc | hc
          · rw [min_eq_left hc,
              min_eq_left (by linarith : rem ≤ lot.size + lotSum rest)]
            ring
          · rw [min_eq_right hc,
              min_eq_right (by linarith : lot.size + lotSum rest ≤ rem)]
        · rcases ih2 with h | h
          · exact Or.inl h
          · exact Or.inr (by rw [h]; ring)
        · simp only [List.map_cons, List.sum_cons, ih3]
        · simpa using Nat.le_succ_of_le ih4
        · rcases ih5 with h | h
          · exact Or.inl (by
              rw [List.length_cons, List.length_cons, h, Nat.sub_add_comm ih4])
          · exact Or.inr (by
              rw [List.length_cons, List.length_cons, h, Nat.sub_add_comm ih4])
      · have hz : rem = lot.size := by linarith [not_lt.mp h0]
        rw [flipCloseShorts_zero sym f (rem - lot.size) rest h0]
        refine ⟨?_, Or.inr (by rw [hz]; ring), by simp, by simp, ?_⟩
        · rw [lotSum_cons, min_eq_left (by linarith : rem ≤ lot.size + lotSum rest), hz]
          ring
        · exact Or.inl (by
            show 1 = rest.length + 1 - rest.length
            rw [Nat.add_sub_cancel_left])
    · have hpart : rem < lot.size := not_le.mp hfull
      rw [flipCloseShorts_cons_small sym f rem lot rest hrem hpart]
      refine ⟨?_, Or.inr rfl, by simp, by simp, ?_⟩
      · rw [lotSum_cons,
          min_eq_left (by linarith : rem ≤ lot.size + lotSum rest)]
      · exact Or.inr (by
          show 1 = (rest.length + 1) - (rest.length + 1) + 1
          rw [Nat.sub_self])


/-- C3: flip allocation.  Concretely, Open-Long(10 @ 100, fee 1) followed by
the single fill Long>Short(15 @ 90, fee 3) emits exactly one TradeRecord
closing the long lot (qty 10, entry 100, exit 90; the flip fill's own fee
allocated 10/15 to it) and leaves one new short lot of size 5 at price 90
carrying 5/15 of the flip fee.  In general a flip fill of either direction
(Long>Short via `flipCloseLongs`, Short>Long via `flipCloseShorts`) closes
opposite-direction lots FIFO, emitting one record per consumed lot, until
the queue empties or the fill size is exhausted (total closed =
min(size, open size)), the emitted quantities sum to the total closed
size, and any remaining size opens a lot in the new direction with fee
`fee * (remaining / size)`. -/
theorem flip_allocation :
    (processFills "S" Ledger.empty
      [⟨.openLong, 10, 100, 0, 1⟩, ⟨.longToShort, 15, 90, 1000, 3⟩] =
     (⟨[], [⟨5, 90, 1000, 1⟩]⟩,
      [⟨"S", "Sell", "long", 100, 90, 10, -103, 3, 1000, 0, 1000⟩])) ∧
    (∀ (sym : String) (f : Fill) (q s : List OpenLot),
      f.dir = Dir.longToShort → 0 < f.sz → (∀ l ∈ q, 0 < l.size) →
      (flipCloseLongs sym f f.sz q).2.1 = min f.sz (lotSum q) ∧
      ((flipCloseLongs sym f f.sz q).1 = [] ∨
        (flipCloseLongs sym f f.sz q).2.1 = f.sz) ∧
      ((flipCloseLongs sym f f.sz q).2.2.map TradeRecord.qty).sum =
        (flipCloseLongs sym f f.sz q).2.1 ∧
      ((flipCloseLongs sym f f.sz q).2.2.length =
          q.length - (flipCloseLongs sym f f.sz q).1.length ∨
        (flipCloseLongs sym f f.sz q).2.2.length =
          q.length - (flipCloseLongs sym f f.sz q).1.length + 1) ∧
      processFill sym ⟨q, s⟩ f =
        (⟨(flipCloseLongs sym f f.sz q).1,
          if 0 < f.sz - (flipCloseLongs sym f f.sz q).2.1 then
            s ++ [⟨f.sz - (flipCloseLongs sym f f.sz q).2.1, f.px, f.time,
              f.fee * ((f.sz - (flipCloseLongs sym f f.sz q).2.1) / f.sz)⟩]
          else s⟩,
          (flipCloseLongs sym f f.sz q).2.2)) ∧
    (∀ (sym : String) (f : Fill) (q s : List OpenLot),
      f.dir = Dir.shortToLong → 0 < f.sz → (∀ l ∈ q, 0 < l.size) →
      (flipCloseShorts sym f f.sz q).2.1 = min f.sz (lotSum q) ∧
      ((flipCloseShorts sym f f.sz q).1 = [] ∨
        (flipCloseShorts sym f f.sz q).2.1 = f.sz) ∧
      ((flipCloseShorts sym f f.sz q).2.2.map TradeRecord.qty).sum =
        (flipCloseShorts sym f f.sz q).2.1 ∧
      ((flipCloseShorts sym f f.sz q).2.2.length =
          q.length - (flipCloseShorts sym f f.sz q).1.length ∨
        (flipCloseShorts sym f f.sz q).2.2.length =
          q.length - (flipCloseShorts sym f f.sz q).1.length + 1) ∧
      processFill sym ⟨s, q⟩ f =
        (⟨if 0 < f.sz - (flipCloseShorts sym f f.sz q).2.1 then
            s ++ [⟨f.sz - (flipCloseShorts sym f f.sz q).2.1, f.px, f.time,
              f.fee * ((f.sz - (flipCloseShorts sym f f.sz q).2.1) / f.sz)⟩]
          else s,
          (flipCloseShorts sym f f.sz q).1⟩,
          (flipCloseShorts sym f f.sz q).2.2)) := by
  refine ⟨?_, ?_, ?_⟩
  · norm_num [processFills, processFill, flipCloseLongs, Ledger.empty]
  · intro sym f q s hd hsz hq
    obtain ⟨h1, h2, h3, _, h5⟩ := flipCloseLongs_spec sym f f.sz q hq hsz
    exact ⟨h1, h2, h3, h5, by simp only [processFill, hd]⟩
  · intro sym f q s hd hsz hq
    obtain ⟨h1, h2, h3, _, h5⟩ := flipCloseShorts_spec sym f f.sz q hq hsz
    exact ⟨h1, h2, h3, h5, by simp only [processFill, hd]⟩

/-- Closed instance of `flip_allocation`: for the flip Long>Short(15 @ 90)
against a single long lot of size 10 the total closed size is
min 15 (lotSum [lot]) = 10, and for the mirror flip Short>Long(15 @ 90)
against a single short lot of size 10 likewise. -/
theorem flip_allocation_witness :
    (flipCloseLongs "S" ⟨.longToShort, 15, 90, 1000, 3⟩ 15
      [⟨10, 100, 0, 1⟩]).2.1 = min 15 (lotSum [⟨10, 100, 0, 1⟩]) ∧
    (flipCloseShorts "S" ⟨.shortToLong, 15, 90, 1000, 3⟩ 15
      [⟨10, 100, 0, 1⟩]).2.1 = min 15 (lotSum [⟨10, 100, 0, 1⟩]) :=
  ⟨(flip_allocation.2.1 "S" ⟨.longToShort, 15, 90, 1000, 3⟩ [⟨10, 100, 0, 1⟩]
      [] rfl (by norm_num)
      (fun l hl => by simp at hl; subst hl; norm_num)).1,
   (flip_allocation.2.2 "S" ⟨.shortToLong, 15, 90, 1000, 3⟩ [⟨10, 100, 0, 1⟩]
      [] rfl (by norm_num)
      (fun l hl => by simp at hl; subst hl; norm_num)).1⟩

lemma listMin_le_head (x : ℤ) (xs : List ℤ) (o : ℤ)
    (h : listMin (x :: xs) = some o) : o ≤ x := by
  unfold listMin at h
  cases hm : listMin xs with
  | none => rw [hm] at h; simp at h; omega
  | some m =>
    rw [hm] at h
    simp at h
    subst h
    exact min_le_left x m

lemma listMax_head_le (x : ℤ) (xs : List ℤ) (n : ℤ)
    (h : listMax (x :: xs) = some n) : x ≤ n := by
  unfold listMax at h
  cases hm : listMax xs with
  | none => rw [hm] at h; simp at h; omega
  | some m =>
    rw [hm] at h
    simp at h
    subst h
    exact le_max_left x m

lemma listMin_le_listMax (l : List ℤ) (o n : ℤ)
    (h1 : listMin l = some o) (h2 : listMax l = some n) : o ≤ n := by
  cases l with
  | nil => simp [listMin] at h1
  | cons x xs =>
    exact le_trans (listMin_le_head x xs o h1) (listMax_head_le x xs n h2)

lemma find?_map_range_update (ranges : List RangeRow) (sym : Option String)
    (ex : RangeRow) (o2 n2 t2 : ℤ)
    (hfind : ranges.find? (fun r => decide (r.symbol = sym)) = some ex) :
    (ranges.map (fun r =>
        if r.symbol = sym then (⟨r.symbol, o2, n2, t2⟩ : RangeRow) else r)).find?
      (fun r => decide (r.symbol = sym)) = some ⟨ex.symbol, o2, n2, t2⟩ := by
  induction ranges with
  | nil => simp at hfind
  | cons a l ih =>
    by_cases ha : a.symbol = sym
    · rw [List.find?_cons_of_pos _ (by simpa using ha)] at hfind
      have hex : ex = a := by injection hfind with h; exact h.symm
      subst hex
      rw [List.map_cons, if_pos ha,
        List.find?_cons_of_pos _ (by simpa using ha)]
    · rw [List.find?_cons_of_neg _ (by simpa using ha)] at hfind
      rw [List.map_cons, if_neg ha,
        List.find?_cons_of_neg _ (by simpa using ha)]
      exact ih hfind

/-- Every `cache_ranges` row has oldest ≤ newest. -/
def RangesWF (db : DbState) : Prop :=
  ∀ r ∈ db.cache_ranges, r.oldest_timestamp ≤ r.newest_timestamp

/-- C5: monotonic extension.  `update_cache_ranges` only ever widens a
scope's cached range: when observed bounds (o,n) exist and the scope
already has a row r, the row becomes (min r.oldest o, max r.newest n); the
invariant oldest ≤ newest is preserved by every update.  Concretely,
updating with observed bounds (150,300) after an initial update observing
(100,200) yields (100,300), and a further update observing (120,180)
leaves the interval at (100,300). -/
theorem update_cache_ranges_monotone :
    (∀ (db : DbState) (sym : Option String) (st en : Option ℤ) (now : ℤ),
      RangesWF db → RangesWF (update_cache_ranges db sym st en now)) ∧
    (∀ (db : DbState) (sym : Option String) (st en : Option ℤ)
      (now o n : ℤ) (r : RangeRow),
      listMin (observed_uts db sym st en) = some o →
      listMax (observed_uts db sym st en) = some n →
      get_cached_range db sym = some r →
      get_cached_range (update_cache_ranges db sym st en now) sym =
        some ⟨r.symbol, min r.oldest_timestamp o,
          max r.newest_timestamp n, now⟩) ∧
    (update_cache_ranges ⟨[⟨"A", 100, ""⟩, ⟨"A", 200, ""⟩], []⟩
        none none none 1 =
      ⟨[⟨"A", 100, ""⟩, ⟨"A", 200, ""⟩], [⟨none, 100, 200, 1⟩]⟩) ∧
    (update_cache_ranges
        ⟨[⟨"A", 100, ""⟩, ⟨"A", 200, ""⟩, ⟨"A", 150, ""⟩, ⟨"A", 300, ""⟩],
          [⟨none, 100, 200, 1⟩]⟩ none (some 150) (some 300) 2 =
      ⟨[⟨"A", 100, ""⟩, ⟨"A", 200, ""⟩, ⟨"A", 150, ""⟩, ⟨"A", 300, ""⟩],
        [⟨none, 100, 300, 2⟩]⟩) ∧
    (update_cache_ranges
        ⟨[⟨"A", 100, ""⟩, ⟨"A", 200, ""⟩, ⟨"A", 150, ""⟩, ⟨"A", 300, ""⟩,
            ⟨"A", 120, ""⟩, ⟨"A", 180, ""⟩],
          [⟨none, 100, 300, 2⟩]⟩ none (some 120) (some 180) 3 =
      ⟨[⟨"A", 100, ""⟩, ⟨"A", 200, ""⟩, ⟨"A", 150, ""⟩, ⟨"A", 300, ""⟩,
          ⟨"A", 120, ""⟩, ⟨"A", 180, ""⟩],
        [⟨none, 100, 300, 3⟩]⟩) := by
  refine ⟨?_, ?_, by decide, by decide, by decide⟩
  · intro db sym st en now hwf
    unfold update_cache_ranges
    cases hmin : listMin (observed_uts db sym st en) with
    | none => exact hwf
    | some o =>
      cases hmax : listMax (observed_uts db sym st en) with
      | none => exact hwf
      | some n =>
        have hon : o ≤ n :=
          listMin_le_listMax (observed_uts db sym st en) o n hmin hmax
        cases hfind : db.cache_ranges.find? (fun r => decide (r.symbol = sym)) with
        | some ex =>
          intro r hr
          rcases List.mem_map.mp hr with ⟨r0, hr0, hr0eq⟩
          by_cases hsym : r0.symbol = sym
          · rw [if_pos hsym] at hr0eq
            subst hr0eq
            simp only
            calc min ex.oldest_timestamp o ≤ o := min_le_right _ _
              _ ≤ n := hon
              _ ≤ max ex.newest_timestamp n := le_max_right _ _
          · rw [if_neg hsym] at hr0eq
            subst hr0eq
            exact hwf r0 hr0
        | none =>
          intro r hr
          rcases List.mem_append.mp hr with h | h
          · exact hwf r h
          · simp at h; subst h; exact hon
  · intro db sym st en now o n r hmin hmax hfound
    unfold update_cache_ranges
    rw [hmin, hmax]
    unfold get_cached_range at hfound
    rw [hfound]
    exact find?_map_range_update db.cache_ranges sym r
      (min r.oldest_timestamp o) (max r.newest_timestamp n) now hfound

/-- Closed instance of `update_cache_ranges_monotone`: the widening formula
applied to the second concrete update (existing row (100,200), observed
bounds (150,300)) yields the row (100,300). -/
theorem update_cache_ranges_monotone_witness :
    get_cached_range (update_cache_ranges
      ⟨[⟨"A", 100, ""⟩, ⟨"A", 200, ""⟩, ⟨"A", 150, ""⟩, ⟨"A", 300, ""⟩],
        [⟨none, 100, 200, 1⟩]⟩ none (some 150) (some 300) 2) none =
      some ⟨none, min 100 150, max 200 300, 2⟩ :=
  update_cache_ranges_monotone.2.1
    ⟨[⟨"A", 100, ""⟩, ⟨"A", 200, ""⟩, ⟨"A", 150, ""⟩, ⟨"A", 300, ""⟩],
      [⟨none, 100, 200, 1⟩]⟩ none (some 150) (some 300) 2 150 300
    ⟨none, 100, 200, 1⟩ (by decide) (by decide) (by decide)

